import Mathlib

/-!
Verification of the `array-init` crate (sequential fill engine).

The two source files are embedded shallowly:

* `lib.rs` — the public functions `array_init`, `from_iter`, `array_init_copy`,
  `from_iter_copy` built on the `IsArray` trait and the `NoDrop` wrapper, plus the
  `impl_is_array!` enumeration of supported array lengths.
* `base.rs` — the `base_array_init_impl!` macro: one loop, parameterized by a
  direction `D ∈ {1, -1}` and a residue mode, with two branches depending on
  whether the element type needs to be dropped; the needs-drop branch maintains
  an `UnsafeDropSliceGuard` that releases the initialized contiguous run if the
  initializer fails.

Storage is modelled as a partial map from slot offsets to element values, `none`
marking an uninitialized slot.  `FnMut` closures are modelled as explicit state
transformers.  Side effects relevant to the specification (which indices the
producer was invoked with, which offsets were written, what a guard would
release) are recorded in the state.
-/

set_option autoImplicit false

namespace ArrayInit

/-- `IsArray::set` for `[T; $size]` (lib.rs, `impl_is_array!`):
`mem::forget(mem::replace(&mut self[idx], value))` writes `value` into slot `idx`,
discarding the slot's previous contents without running any destructor. -/
def setSlot {T : Type} (ret : Nat → Option T) (idx : Nat) (value : T) : Nat → Option T :=
  fun j => if j = idx then some value else ret j

/-- The producer closure's captured state after it has been invoked, in order,
with indices `0, 1, ..., i-1` (the closure is `FnMut`, modelled as an explicit
state transformer `Nat → σ → T × σ`). -/
def prodState {T σ : Type} (f : Nat → σ → T × σ) (s : σ) : Nat → σ
  | 0 => s
  | i + 1 => (f i (prodState f s i)).2

/-- The value the producer returns when invoked with index `i`, its previous
invocations having been `0, ..., i-1` in that order. -/
def prodVal {T σ : Type} (f : Nat → σ → T × σ) (s : σ) (i : Nat) : T :=
  (f i (prodState f s i)).1

/-- The `for i in 0..Array::len()` loop of lib.rs `array_init`:
`Array::set(&mut ret, i, initializer(i))` for each listed index, threading the
closure's state. -/
def array_init_go {T σ : Type} (f : Nat → σ → T × σ) :
    List Nat → (Nat → Option T) → σ → (Nat → Option T) × σ
  | [], ret, s => (ret, s)
  | i :: rest, ret, s => array_init_go f rest (setSlot ret i (f i s).1) (f i s).2

/-- lib.rs `array_init`: `ret` starts as uninitialized storage
(`NoDrop::new(mem::uninitialized())`), the loop writes `initializer(i)` into slot
`i` for `i in 0..Array::len()`, and the filled array is returned through
`ret.into_inner()`. -/
def array_init {T σ : Type} (N : Nat) (f : Nat → σ → T × σ) (s : σ) :
    (Nat → Option T) × σ :=
  array_init_go f (List.range N) (fun _ => none) s

/-- The loop of lib.rs `array_init_copy`: textually the same loop as `array_init`,
writing directly into `ret : Array` with no `NoDrop` wrapper (the `Copy` bound
means no destructor could ever need to run). -/
def array_init_copy_go {T σ : Type} (f : Nat → σ → T × σ) :
    List Nat → (Nat → Option T) → σ → (Nat → Option T) × σ
  | [], ret, s => (ret, s)
  | i :: rest, ret, s => array_init_copy_go f rest (setSlot ret i (f i s).1) (f i s).2

/-- lib.rs `array_init_copy`: same fill loop as `array_init`, minus the rollback
bookkeeping. -/
def array_init_copy {T σ : Type} (N : Nat) (f : Nat → σ → T × σ) (s : σ) :
    (Nat → Option T) × σ :=
  array_init_copy_go f (List.range N) (fun _ => none) s

theorem array_init_go_range' {T σ : Type} (f : Nat → σ → T × σ) (s : σ) :
    ∀ (n a : Nat) (ret : Nat → Option T),
      array_init_go f (List.range' a n) ret (prodState f s a) =
        (fun j => if a ≤ j ∧ j < a + n then some (prodVal f s j) else ret j,
         prodState f s (a + n)) := by
  intro n
  induction n with
  | zero =>
    intro a ret
    have h : (fun j => if a ≤ j ∧ j < a + 0 then some (prodVal f s j) else ret j) = ret := by
      funext j
      rw [if_neg (by omega)]
    rw [h]
    rfl
  | succ n ih =>
    intro a ret
    have hstep : array_init_go f (List.range' a (n + 1)) ret (prodState f s a) =
        array_init_go f (List.range' (a + 1) n)
          (setSlot ret a (prodVal f s a)) (prodState f s (a + 1)) := rfl
    rw [hstep, ih (a + 1) (setSlot ret a (prodVal f s a))]
    have hfun : (fun j => if a + 1 ≤ j ∧ j < a + 1 + n then some (prodVal f s j)
        else setSlot ret a (prodVal f s a) j) =
        (fun j => if a ≤ j ∧ j < a + (n + 1) then some (prodVal f s j) else ret j) := by
      funext j
      by_cases h1 : a + 1 ≤ j ∧ j < a + 1 + n
      · rw [if_pos h1, if_pos (by omega)]
      · rw [if_neg h1]
        by_cases h2 : j = a
        · subst h2
          rw [show setSlot ret j (prodVal f s j) j = some (prodVal f s j) from
            if_pos rfl, if_pos (by omega)]
        · rw [show setSlot ret a (prodVal f s a) j = ret j from if_neg h2,
            if_neg (by omega)]
    rw [hfun]
    have : a + 1 + n = a + (n + 1) := by omega
    rw [this]

theorem array_init_eq_fill {T σ : Type} (N : Nat) (f : Nat → σ → T × σ) (s : σ) :
    array_init N f s =
      (fun j => if j < N then some (prodVal f s j) else none, prodState f s N) := by
  have h := array_init_go_range' f s N 0 (fun _ => none)
  have h0 : prodState f s 0 = s := rfl
  rw [h0] at h
  have hdef : array_init N f s = array_init_go f (List.range' 0 N) (fun _ => none) s := by
    rw [array_init, List.range_eq_range']
  rw [hdef, h]
  have hfun : (fun j => if 0 ≤ j ∧ j < 0 + N then some (prodVal f s j) else none) =
      (fun j => if j < N then some (prodVal f s j) else none) := by
    funext j
    by_cases hj : j < N
    · rw [if_pos (by omega), if_pos hj]
    · rw [if_neg (by omega), if_neg hj]
  rw [hfun, Nat.zero_add]

/-- C2: for every `N ≥ 0` and every (never-failing, possibly stateful) producer,
lib.rs `array_init` returns a container holding exactly `N` elements, the element
at each index `i < N` being exactly the value the producer returned when invoked
with index `i`. -/
theorem array_init_complete {T σ : Type} (N : Nat) (f : Nat → σ → T × σ) (s : σ) :
    (∀ i, i < N → (array_init N f s).1 i = some (prodVal f s i)) ∧
    (∀ i, N ≤ i → (array_init N f s).1 i = none) := by
  rw [array_init_eq_fill]
  constructor
  · intro i hi
    exact if_pos hi
  · intro i hi
    exact if_neg (by omega)

/-- Witness for `array_init_complete`: `N = 3`, producer `i * i`, checking slot 2. -/
theorem array_init_complete_witness :
    (2 < 3 ∧ (array_init 3 (fun i (s : Unit) => (i * i, s)) ()).1 2 =
      some (prodVal (fun i (s : Unit) => (i * i, s)) () 2)) ∧
    (3 ≤ 5 ∧ (array_init 3 (fun i (s : Unit) => (i * i, s)) ()).1 5 = none) :=
  ⟨⟨by decide, (array_init_complete 3 _ ()).1 2 (by decide)⟩,
   ⟨by decide, (array_init_complete 3 _ ()).2 5 (by decide)⟩⟩

/-- State carried by the `for item in iter.take(len)` loop of lib.rs `from_iter`:
the storage being filled, the `count` variable, the values consumed from the
iterator so far (in order), the number of calls made to the underlying
iterator's `next`, and the iterator's own state. -/
structure FillLoopState (T ι : Type) where
  ret : Nat → Option T
  count : Nat
  consumed : List T
  nextCalls : Nat
  it : ι

/-- The loop of lib.rs `from_iter`: an iterator is modelled by its `next`
transition `ι → Option (T × ι)`; `fuel` is the remaining `Iterator::take`
budget — once it reaches `0`, `take`'s `next` returns `None` without calling the
underlying iterator; otherwise one underlying `next` call is made, and a yielded
item is written at slot `count` (via `Array::set`) with `count` incremented. -/
def from_iter_go {T ι : Type} (next : ι → Option (T × ι)) :
    Nat → FillLoopState T ι → FillLoopState T ι
  | 0, st => st
  | fuel + 1, st =>
    match next st.it with
    | none => { st with nextCalls := st.nextCalls + 1 }
    | some (v, it') =>
      from_iter_go next fuel
        { ret := setSlot st.ret st.count v
          count := st.count + 1
          consumed := st.consumed ++ [v]
          nextCalls := st.nextCalls + 1
          it := it' }

/-- Observable outcome of a `from_iter` / `from_iter_copy` call: the returned
`Option` value, the items consumed from the iterator, the element values this
call released (ran destructors for) before returning, and the number of calls
made to the underlying iterator's `next`. -/
structure FromIterRes (T : Type) where
  out : Option (Nat → Option T)
  consumed : List T
  released : List T
  nextCalls : Nat

/-- lib.rs `from_iter`: run the loop with `take(Array::len())`, then return
`Some(ret.into_inner())` iff `count == Array::len()`.  On the `None` path the
local `ret : NoDrop<Array>` goes out of scope, and the `NoDrop` wrapper (the
`nodrop` crate) suppresses the contents' destructor, so nothing is released —
the consumed prefix is leaked, which is what keeps dropping the uninitialized
tail unreachable. -/
def from_iter {T ι : Type} (N : Nat) (next : ι → Option (T × ι)) (it0 : ι) :
    FromIterRes T :=
  let st := from_iter_go next N ⟨fun _ => none, 0, [], 0, it0⟩
  if st.count = N then
    { out := some st.ret, consumed := st.consumed, released := [],
      nextCalls := st.nextCalls }
  else
    { out := none, consumed := st.consumed, released := [],
      nextCalls := st.nextCalls }

/-- The loop of lib.rs `from_iter_copy`: textually the same loop as `from_iter`,
writing into a bare `ret : Array` with no `NoDrop` wrapper. -/
def from_iter_copy_go {T ι : Type} (next : ι → Option (T × ι)) :
    Nat → FillLoopState T ι → FillLoopState T ι
  | 0, st => st
  | fuel + 1, st =>
    match next st.it with
    | none => { st with nextCalls := st.nextCalls + 1 }
    | some (v, it') =>
      from_iter_copy_go next fuel
        { ret := setSlot st.ret st.count v
          count := st.count + 1
          consumed := st.consumed ++ [v]
          nextCalls := st.nextCalls + 1
          it := it' }

/-- lib.rs `from_iter_copy`: same drain-and-check as `from_iter`.  On the `None`
path the bare `ret : Array` is dropped, but the `Array::Item : Copy` bound means
the element type has no destructor (`Copy` and `Drop` are exclusive), so again
nothing is released. -/
def from_iter_copy {T ι : Type} (N : Nat) (next : ι → Option (T × ι)) (it0 : ι) :
    FromIterRes T :=
  let st := from_iter_copy_go next N ⟨fun _ => none, 0, [], 0, it0⟩
  if st.count = N then
    { out := some st.ret, consumed := st.consumed, released := [],
      nextCalls := st.nextCalls }
  else
    { out := none, consumed := st.consumed, released := [],
      nextCalls := st.nextCalls }

/-- `next` for an iterator over a list (used for concrete runs). -/
def listNext {T : Type} : List T → Option (T × List T)
  | [] => none
  | x :: xs => some (x, xs)

/-- Whether the iterator can yield at least `k` further items. -/
def canYield {T ι : Type} (next : ι → Option (T × ι)) : Nat → ι → Bool
  | 0, _ => true
  | k + 1, it =>
    match next it with
    | none => false
    | some (_, it') => canYield next k it'

/-- The items the iterator yields over at most `k` successive `next` calls. -/
def yieldList {T ι : Type} (next : ι → Option (T × ι)) : Nat → ι → List T
  | 0, _ => []
  | k + 1, it =>
    match next it with
    | none => []
    | some (v, it') => v :: yieldList next k it'

theorem yieldList_length_le {T ι : Type} (next : ι → Option (T × ι)) :
    ∀ (k : Nat) (it : ι), (yieldList next k it).length ≤ k := by
  intro k
  induction k with
  | zero => intro it; simp [yieldList]
  | succ k ih =>
    intro it
    rcases hnext : next it with _ | ⟨v, it'⟩
    · simp [yieldList, hnext]
    · simp only [yieldList, hnext, List.length_cons]
      exact Nat.succ_le_succ (ih it')

theorem canYield_iff_length {T ι : Type} (next : ι → Option (T × ι)) :
    ∀ (k : Nat) (it : ι), canYield next k it = true ↔ (yieldList next k it).length = k := by
  intro k
  induction k with
  | zero => intro it; simp [canYield, yieldList]
  | succ k ih =>
    intro it
    rcases hnext : next it with _ | ⟨v, it'⟩
    · simp [canYield, yieldList, hnext]
    · simp only [canYield, yieldList, hnext, List.length_cons, Nat.succ_inj]
      exact ih it'

theorem from_iter_go_spec {T ι : Type} (next : ι → Option (T × ι)) :
    ∀ (fuel : Nat) (st : FillLoopState T ι),
      (from_iter_go next fuel st).count = st.count + (yieldList next fuel st.it).length ∧
      (from_iter_go next fuel st).consumed = st.consumed ++ yieldList next fuel st.it ∧
      (from_iter_go next fuel st).nextCalls =
        st.nextCalls + (yieldList next fuel st.it).length +
          (if canYield next fuel st.it then 0 else 1) := by
  intro fuel
  induction fuel with
  | zero => intro st; simp [from_iter_go, yieldList, canYield]
  | succ fuel ih =>
    intro st
    rcases hnext : next st.it with _ | ⟨v, it'⟩
    · simp [from_iter_go, yieldList, canYield, hnext]
    · obtain ⟨h1, h2, h3⟩ := ih
        { ret := setSlot st.ret st.count v
          count := st.count + 1
          consumed := st.consumed ++ [v]
          nextCalls := st.nextCalls + 1
          it := it' }
      refine ⟨?_, ?_, ?_⟩
      · simp only [from_iter_go, hnext, h1, yieldList, List.length_cons]
        omega
      · simp only [from_iter_go, hnext, h2, yieldList, List.append_assoc,
          List.singleton_append]
      · simp only [from_iter_go, hnext, h3, yieldList, canYield, List.length_cons]
        omega

theorem from_iter_go_init_spec {T ι : Type} (N : Nat) (next : ι → Option (T × ι))
    (it0 : ι) :
    (from_iter_go next N (⟨fun _ => none, 0, [], 0, it0⟩ :
        FillLoopState T ι)).count = (yieldList next N it0).length ∧
    (from_iter_go next N (⟨fun _ => none, 0, [], 0, it0⟩ :
        FillLoopState T ι)).consumed = yieldList next N it0 ∧
    (from_iter_go next N (⟨fun _ => none, 0, [], 0, it0⟩ :
        FillLoopState T ι)).nextCalls =
      (yieldList next N it0).length + (if canYield next N it0 then 0 else 1) := by
  obtain ⟨h1, h2, h3⟩ := from_iter_go_spec next N
    (⟨fun _ => none, 0, [], 0, it0⟩ : FillLoopState T ι)
  exact ⟨by simpa using h1, by simpa using h2, by simpa using h3⟩

theorem from_iter_copy_go_eq {T ι : Type} (next : ι → Option (T × ι)) :
    ∀ (fuel : Nat) (st : FillLoopState T ι),
      from_iter_copy_go next fuel st = from_iter_go next fuel st := by
  intro fuel
  induction fuel with
  | zero => intro st; rfl
  | succ fuel ih =>
    intro st
    rcases hnext : next st.it with _ | ⟨v, it'⟩
    · simp [from_iter_copy_go, from_iter_go, hnext]
    · simp [from_iter_copy_go, from_iter_go, hnext, ih]

theorem from_iter_copy_eq {T ι : Type} (N : Nat) (next : ι → Option (T × ι)) (it0 : ι) :
    from_iter_copy N next it0 = from_iter N next it0 := by
  rw [from_iter_copy, from_iter, from_iter_copy_go_eq]

theorem from_iter_run_facts {T ι : Type} (N : Nat) (next : ι → Option (T × ι))
    (it0 : ι) :
    ((from_iter N next it0).out.isSome = true ↔ canYield next N it0 = true) ∧
    (canYield next N it0 = true → (from_iter N next it0).consumed.length = N) ∧
    (canYield next N it0 = false →
      (from_iter N next it0).out = none ∧ (from_iter N next it0).released = []) ∧
    (from_iter N next it0).nextCalls ≤ N ∧
    (canYield next N it0 = true → (from_iter N next it0).nextCalls = N) := by
  obtain ⟨h1, h2, h3⟩ := from_iter_go_init_spec N next it0
  have hcalls : (from_iter N next it0).nextCalls =
      (from_iter_go next N (⟨fun _ => none, 0, [], 0, it0⟩ :
        FillLoopState T ι)).nextCalls := by
    by_cases hc : (from_iter_go next N (⟨fun _ => none, 0, [], 0, it0⟩ :
        FillLoopState T ι)).count = N <;> simp [from_iter, hc]
  have hle := yieldList_length_le next N it0
  by_cases hc : (from_iter_go next N (⟨fun _ => none, 0, [], 0, it0⟩ :
      FillLoopState T ι)).count = N
  · have hyl : (yieldList next N it0).length = N := by rw [← h1, hc]
    have hcy : canYield next N it0 = true := (canYield_iff_length next N it0).2 hyl
    refine ⟨?_, ?_, ?_, ?_, ?_⟩
    · simp [from_iter, hc, hcy]
    · intro _
      simp [from_iter, hc, h2, hyl]
    · intro h
      rw [h] at hcy
      cases hcy
    · rw [hcalls, h3, hyl, hcy]
      simp
    · intro _
      rw [hcalls, h3, hyl, hcy]
      simp
  · have hyl : (yieldList next N it0).length ≠ N := by
      intro h
      exact hc (by rw [h1, h])
    have hcy : canYield next N it0 = false := by
      rcases hb : canYield next N it0 with _ | _
      · rfl
      · exact absurd ((canYield_iff_length next N it0).1 hb) hyl
    refine ⟨?_, ?_, ?_, ?_, ?_⟩
    · simp [from_iter, hc, hcy]
    · intro h
      rw [h] at hcy
      cases hcy
    · intro _
      simp [from_iter, hc]
    · have hlt : (yieldList next N it0).length < N := Nat.lt_of_le_of_ne hle hyl
      rw [hcalls, h3, hcy, if_neg (show ¬ (false = true) by simp)]
      omega
    · intro h
      rw [h] at hcy
      cases hcy

/-- C4 (amended): `from_iter` returns the container exactly when the source can
yield at least `N` items, in which case exactly `N` items are consumed; with
fewer items it returns `None` (absence, not an error value) — but the items
consumed on that path are released zero times, not once: the `NoDrop` wrapper
suppresses their destructors, so the consumed prefix is leaked. -/
theorem from_iter_exhaustion_leaks {T ι : Type} (N : Nat) (next : ι → Option (T × ι))
    (it0 : ι) :
    ((from_iter N next it0).out.isSome = true ↔ canYield next N it0 = true) ∧
    (canYield next N it0 = true → (from_iter N next it0).consumed.length = N) ∧
    (canYield next N it0 = false →
      (from_iter N next it0).out = none ∧ (from_iter N next it0).released = []) := by
  obtain ⟨hiff, hcons, hnone, _, _⟩ := from_iter_run_facts N next it0
  exact ⟨hiff, hcons, hnone⟩

/-- Witness for `from_iter_exhaustion_leaks`: a 1-item source drained into `N = 2`. -/
theorem from_iter_exhaustion_leaks_witness :
    canYield listNext 2 [(5 : Nat)] = false ∧
    ((from_iter 2 listNext [(5 : Nat)]).out = none ∧
      (from_iter 2 listNext [(5 : Nat)]).released = []) :=
  ⟨by decide, (from_iter_exhaustion_leaks 2 listNext [(5 : Nat)]).2.2 (by decide)⟩

/-- Counterexample to C4 as stated: draining the 1-item source `[5]` into `N = 2`
yields `None` and consumes the item `5`, yet `from_iter` releases it zero times,
not "exactly once" — the `NoDrop` wrapper suppresses the destructor, leaking it. -/
theorem from_iter_release_cex :
    (from_iter 2 listNext [(5 : Nat)]).out = none ∧
    (from_iter 2 listNext [(5 : Nat)]).consumed = [5] ∧
    ¬ ((from_iter 2 listNext [(5 : Nat)]).released.count 5 = 1) :=
  ⟨rfl, by decide, by decide⟩

/-- C9: `from_iter` and `from_iter_copy` call the underlying iterator's `next` at
most `N` times (`Iterator::take(N)` bounds the drain, so both terminate even on
an infinite iterator); on success exactly `N` items were consumed and exactly
`N` `next` calls were made. -/
theorem from_iter_draws_at_most_len {T ι : Type} (N : Nat) (next : ι → Option (T × ι))
    (it0 : ι) :
    (from_iter N next it0).nextCalls ≤ N ∧
    (from_iter_copy N next it0).nextCalls ≤ N ∧
    ((from_iter N next it0).out.isSome = true →
      (from_iter N next it0).consumed.length = N ∧
      (from_iter N next it0).nextCalls = N) := by
  obtain ⟨hiff, hcons, _, hbound, hcalls⟩ := from_iter_run_facts N next it0
  refine ⟨hbound, by rw [from_iter_copy_eq]; exact hbound, ?_⟩
  intro hsome
  have hcy : canYield next N it0 = true := hiff.1 hsome
  exact ⟨hcons hcy, hcalls hcy⟩

/-- Witness for `from_iter_draws_at_most_len`: `N = 2` over the infinite-enough
source `[1, 2, 3]`. -/
theorem from_iter_draws_at_most_len_witness :
    (from_iter 2 listNext [(1 : Nat), 2, 3]).nextCalls ≤ 2 ∧
    ((from_iter 2 listNext [(1 : Nat), 2, 3]).out.isSome = true ∧
      (from_iter 2 listNext [(1 : Nat), 2, 3]).consumed.length = 2 ∧
      (from_iter 2 listNext [(1 : Nat), 2, 3]).nextCalls = 2) :=
  ⟨(from_iter_draws_at_most_len 2 listNext [(1 : Nat), 2, 3]).1,
   by decide,
   (from_iter_draws_at_most_len 2 listNext [(1 : Nat), 2, 3]).2.2 (by decide)⟩

/-!
## The `base_array_init_impl!` engine (base.rs)

The macro expands to one loop `for i in 0..N` over a region of `N`
uninitialized slots, with a raw write cursor `ptr_i`; offsets into the region
are integers (`0` is the first slot).  For direction `D < 0` the cursor starts
one past the end (`ptr_i.add(N)`) and is decremented before each write; for
`D > 0` it starts at the front and is incremented after each write.  The
needs-drop branch additionally maintains an `UnsafeDropSliceGuard` whose
`base_ptr`/`initialized_count` delimit the slots it would `drop_in_place`.
-/

/-- State of the needs-drop branch: the region (`none` = uninitialized slot),
the write cursor `ptr_i`, the guard fields `base_ptr` and `initialized_count`,
plus observation logs: the indices passed to the initializer (in call order) and
the offsets written (in write order). -/
@[ext]
structure EngineState (T : Type) where
  slots : Int → Option T
  ptr : Int
  base : Int
  count : Nat
  calls : List Nat
  writes : List Int

/-- `panic_guard.initialized_count = i`, immediately before the initializer is
invoked for index `i` (the invocation is recorded in the call log). -/
def armGuard {T : Type} (i : Nat) (st : EngineState T) : EngineState T :=
  { st with count := i, calls := st.calls ++ [i] }

/-- One iteration (index `i`) of the needs-drop loop in `result` residue mode:
arm the guard with `initialized_count = i` and call the initializer; on `Err`
the `?` operator returns early (the guard will be dropped); on `Ok v`: if
`D < 0` decrement the cursor and move `base_ptr` down with it, write `v` at the
cursor, and if `D > 0` advance the cursor. -/
def dropStep {T σ E : Type} (f : Nat → σ → Except E T × σ) (d : Int) (i : Nat)
    (st : EngineState T) (s : σ) :
    (EngineState T × σ) ⊕ (E × EngineState T × σ) :=
  let st1 := armGuard i st
  match f i s with
  | (Except.error e, s') => Sum.inr (e, st1, s')
  | (Except.ok v, s') =>
    let st2 := if d < 0 then { st1 with ptr := st1.ptr - 1, base := st1.ptr - 1 } else st1
    let st3 := { st2 with
      slots := fun j => if j = st2.ptr then some v else st2.slots j
      writes := st2.writes ++ [st2.ptr] }
    let st4 := if d > 0 then { st3 with ptr := st3.ptr + 1 } else st3
    Sum.inl (st4, s')

/-- The `for i in 0..N` loop of the needs-drop branch (`result` residue):
stops at the first `Err`, carrying the error together with the state the guard
is torn down in. -/
def dropGo {T σ E : Type} (f : Nat → σ → Except E T × σ) (d : Int) :
    List Nat → EngineState T → σ → (EngineState T × σ) ⊕ (E × EngineState T × σ)
  | [], st, s => Sum.inl (st, s)
  | i :: rest, st, s =>
    match dropStep f d i st s with
    | Sum.inl (st', s') => dropGo f d rest st' s'
    | Sum.inr r => Sum.inr r

/-- Initial engine state: `MaybeUninit::uninit()` region, cursor at the front or
(for `D < 0`, after `ptr_i.add(N)`) one past the end, and the guard constructed
with `base_ptr = ptr_i`, `initialized_count = 0`. -/
def engineInit (T : Type) (N : Nat) (d : Int) : EngineState T :=
  { slots := fun _ => none
    ptr := if d < 0 then (N : Int) else 0
    base := if d < 0 then (N : Int) else 0
    count := 0
    calls := []
    writes := [] }

/-- The needs-drop branch of `base_array_init_impl!` with the `result` residue
(the engine behind the spec's `try_fill_with`): `Sum.inl` is the fully
initialized region (`mem::forget(panic_guard); array.assume_init()`), `Sum.inr`
carries the initializer's error verbatim plus the state at guard teardown. -/
def base_array_init_drop {T σ E : Type} (N : Nat) (d : Int)
    (f : Nat → σ → Except E T × σ) (s : σ) :
    (EngineState T × σ) ⊕ (E × EngineState T × σ) :=
  dropGo f d (List.range N) (engineInit T N d) s

/-- The needs-drop branch with the `option` residue: `prop_negative!($stmt, option)`
is the same `?`-propagation with `None` in place of `Err(e)`, so the expansion is
the `result` expansion with the one-point error type. -/
def base_array_init_drop_option {T σ : Type} (N : Nat) (d : Int)
    (f : Nat → σ → Option T × σ) (s : σ) :
    (EngineState T × σ) ⊕ (Unit × EngineState T × σ) :=
  base_array_init_drop N d
    (fun i s0 =>
      match f i s0 with
      | (none, s') => (Except.error (), s')
      | (some v, s') => (Except.ok v, s')) s

/-- The slot offsets `UnsafeDropSliceGuard::drop` releases:
`drop_in_place(slice::from_raw_parts_mut(base_ptr, initialized_count))` runs the
destructor of `base_ptr[0], ..., base_ptr[initialized_count - 1]`, each exactly
once, in order. -/
def guardDropOffsets {T : Type} (st : EngineState T) : List Int :=
  (List.range st.count).map (fun k => st.base + Int.ofNat k)

/-- The element values the guard's teardown releases (one entry per dropped slot). -/
def guardDropValues {T : Type} (st : EngineState T) : List (Option T) :=
  (guardDropOffsets st).map st.slots

/-- Captured state of a fallible (`result`-residue) producer after invocations
`0, ..., i-1` in order. -/
def prodStateE {T σ E : Type} (f : Nat → σ → Except E T × σ) (s : σ) : Nat → σ
  | 0 => s
  | i + 1 => (f i (prodStateE f s i)).2

/-- Outcome of the fallible producer when invoked with index `i` after
invocations `0, ..., i-1`. -/
def prodResE {T σ E : Type} (f : Nat → σ → Except E T × σ) (s : σ) (i : Nat) :
    Except E T :=
  (f i (prodStateE f s i)).1

/-- State of the no-drop branch of `base_array_init_impl!` (no guard): the
region, the write cursor, and the same observation logs. -/
@[ext]
structure RegionState (T : Type) where
  slots : Int → Option T
  ptr : Int
  calls : List Nat
  writes : List Int

/-- One iteration (index `i`) of the no-drop branch with the `naked` residue:
call the initializer (recording the call), then the same cursor dance and write
as the needs-drop branch, with no guard to maintain. -/
def nodropStep {T σ : Type} (f : Nat → σ → T × σ) (d : Int) (i : Nat)
    (st : RegionState T) (s : σ) : RegionState T × σ :=
  let st1 := { st with calls := st.calls ++ [i] }
  let st2 := if d < 0 then { st1 with ptr := st1.ptr - 1 } else st1
  let st3 := { st2 with
    slots := fun j => if j = st2.ptr then some (f i s).1 else st2.slots j
    writes := st2.writes ++ [st2.ptr] }
  let st4 := if d > 0 then { st3 with ptr := st3.ptr + 1 } else st3
  (st4, (f i s).2)

/-- The `for i in 0..N` loop of the no-drop branch (`naked` residue). -/
def nodropGo {T σ : Type} (f : Nat → σ → T × σ) (d : Int) :
    List Nat → RegionState T → σ → RegionState T × σ
  | [], st, s => (st, s)
  | i :: rest, st, s =>
    let p := nodropStep f d i st s
    nodropGo f d rest p.1 p.2

/-- Initial region state of the no-drop branch. -/
def regionInit (T : Type) (N : Nat) (d : Int) : RegionState T :=
  { slots := fun _ => none
    ptr := if d < 0 then (N : Int) else 0
    calls := []
    writes := [] }

/-- The no-drop branch of `base_array_init_impl!` with the `naked` residue (the
engine behind the spec's `fill_with` for release-free element types). -/
def base_array_init_nodrop {T σ : Type} (N : Nat) (d : Int) (f : Nat → σ → T × σ)
    (s : σ) : RegionState T × σ :=
  nodropGo f d (List.range N) (regionInit T N d) s

/-- Expected region state of a forward (`D = 1`) no-drop run after completing
iterations `0, ..., i-1`: slots `0..i-1` hold the produced values, the cursor is
at offset `i`. -/
def fwdRegion {T σ : Type} (f : Nat → σ → T × σ) (s : σ) (i : Nat) : RegionState T :=
  { slots := fun j => if 0 ≤ j ∧ j < (i : Int) then some (prodVal f s j.toNat) else none
    ptr := (i : Int)
    calls := List.range i
    writes := (List.range i).map Int.ofNat }

/-- Expected region state of a backward (`D = -1`) no-drop run over a region of
`N` slots after completing iterations `0, ..., i-1`: slots `N-i..N-1` hold the
produced values (slot `N-1-t` holding the value produced for index `t`), the
cursor is at offset `N-i`. -/
def bwdRegion {T σ : Type} (f : Nat → σ → T × σ) (s : σ) (N i : Nat) : RegionState T :=
  { slots := fun j => if (N : Int) - (i : Int) ≤ j ∧ j < (N : Int) then
      some (prodVal f s (N - 1 - j.toNat)) else none
    ptr := (N : Int) - (i : Int)
    calls := List.range i
    writes := (List.range i).map (fun t => (N : Int) - 1 - Int.ofNat t) }

theorem nodropStep_pos {T σ : Type} (f : Nat → σ → T × σ) (i : Nat)
    (st : RegionState T) (s : σ) :
    nodropStep f 1 i st s =
      ({ slots := fun j => if j = st.ptr then some (f i s).1 else st.slots j
         ptr := st.ptr + 1
         calls := st.calls ++ [i]
         writes := st.writes ++ [st.ptr] }, (f i s).2) := by
  simp only [nodropStep]
  rw [if_neg (by norm_num : ¬ (1 : Int) < 0), if_pos (by norm_num : (1 : Int) > 0)]

theorem nodropStep_neg {T σ : Type} (f : Nat → σ → T × σ) (i : Nat)
    (st : RegionState T) (s : σ) :
    nodropStep f (-1) i st s =
      ({ slots := fun j => if j = st.ptr - 1 then some (f i s).1 else st.slots j
         ptr := st.ptr - 1
         calls := st.calls ++ [i]
         writes := st.writes ++ [st.ptr - 1] }, (f i s).2) := by
  simp only [nodropStep]
  rw [if_pos (by norm_num : (-1 : Int) < 0), if_neg (by norm_num : ¬ (-1 : Int) > 0)]

theorem fwdRegion_step {T σ : Type} (f : Nat → σ → T × σ) (s : σ) (a : Nat) :
    ({ slots := fun j => if j = (fwdRegion f s a).ptr then some (f a (prodState f s a)).1
         else (fwdRegion f s a).slots j
       ptr := (fwdRegion f s a).ptr + 1
       calls := (fwdRegion f s a).calls ++ [a]
       writes := (fwdRegion f s a).writes ++ [(fwdRegion f s a).ptr] } : RegionState T) =
      fwdRegion f s (a + 1) := by
  refine RegionState.ext ?_ ?_ ?_ ?_
  · funext j
    simp only [fwdRegion]
    by_cases hj : j = (a : Int)
    · subst hj
      rw [if_pos rfl, if_pos (show (0 : Int) ≤ (a : Int) ∧ (a : Int) < ((a + 1 : Nat) : Int)
        by omega)]
      rfl
    · rw [if_neg hj]
      by_cases hcond : 0 ≤ j ∧ j < (a : Int)
      · rw [if_pos hcond, if_pos (show (0 : Int) ≤ j ∧ j < ((a + 1 : Nat) : Int) by omega)]
      · rw [if_neg hcond, if_neg (show ¬ ((0 : Int) ≤ j ∧ j < ((a + 1 : Nat) : Int)) by omega)]
  · simp only [fwdRegion]
    push_cast
    ring
  · simp only [fwdRegion]
    rw [List.range_succ]
  · simp only [fwdRegion]
    rw [List.range_succ, List.map_append]
    rfl

theorem nodropGo_fwd {T σ : Type} (f : Nat → σ → T × σ) (s : σ) :
    ∀ (n a : Nat),
      nodropGo f 1 (List.range' a n) (fwdRegion f s a) (prodState f s a) =
        (fwdRegion f s (a + n), prodState f s (a + n)) := by
  intro n
  induction n with
  | zero => intro a; rfl
  | succ n ih =>
    intro a
    show nodropGo f 1 (a :: List.range' (a + 1) n) _ _ = _
    simp only [nodropGo]
    rw [nodropStep_pos, fwdRegion_step f s a]
    have h2 : (f a (prodState f s a)).2 = prodState f s (a + 1) := rfl
    rw [h2]
    have := ih (a + 1)
    rw [show a + 1 + n = a + (n + 1) by omega] at this
    exact this

theorem bwdRegion_step {T σ : Type} (f : Nat → σ → T × σ) (s : σ) (N a : Nat)
    (ha : a < N) :
    ({ slots := fun j => if j = (bwdRegion f s N a).ptr - 1 then some (f a (prodState f s a)).1
         else (bwdRegion f s N a).slots j
       ptr := (bwdRegion f s N a).ptr - 1
       calls := (bwdRegion f s N a).calls ++ [a]
       writes := (bwdRegion f s N a).writes ++ [(bwdRegion f s N a).ptr - 1] } :
        RegionState T) = bwdRegion f s N (a + 1) := by
  refine RegionState.ext ?_ ?_ ?_ ?_
  · funext j
    simp only [bwdRegion]
    by_cases hj : j = (N : Int) - (a : Int) - 1
    · subst hj
      rw [if_pos rfl, if_pos (show (N : Int) - ((a + 1 : Nat) : Int) ≤ (N : Int) - (a : Int) - 1
          ∧ (N : Int) - (a : Int) - 1 < (N : Int) by omega)]
      have htn : ((N : Int) - (a : Int) - 1).toNat = N - a - 1 := by omega
      rw [htn]
      have hidx : N - 1 - (N - a - 1) = a := by omega
      rw [hidx]
      rfl
    · rw [if_neg hj]
      by_cases hcond : (N : Int) - (a : Int) ≤ j ∧ j < (N : Int)
      · rw [if_pos hcond, if_pos (show (N : Int) - ((a + 1 : Nat) : Int) ≤ j ∧ j < (N : Int)
          by omega)]
      · rw [if_neg hcond, if_neg (show ¬ ((N : Int) - ((a + 1 : Nat) : Int) ≤ j ∧
          j < (N : Int)) by omega)]
  · simp only [bwdRegion]
    push_cast
    ring
  · simp only [bwdRegion]
    rw [List.range_succ]
  · simp only [bwdRegion]
    rw [List.range_succ, List.map_append]
    have : (N : Int) - (a : Int) - 1 = (N : Int) - 1 - (a : Int) := by ring
    rw [this]
    rfl

theorem nodropGo_bwd {T σ : Type} (f : Nat → σ → T × σ) (s : σ) (N : Nat) :
    ∀ (n a : Nat), a + n ≤ N →
      nodropGo f (-1) (List.range' a n) (bwdRegion f s N a) (prodState f s a) =
        (bwdRegion f s N (a + n), prodState f s (a + n)) := by
  intro n
  induction n with
  | zero => intro a _; rfl
  | succ n ih =>
    intro a hle
    show nodropGo f (-1) (a :: List.range' (a + 1) n) _ _ = _
    simp only [nodropGo]
    rw [nodropStep_neg, bwdRegion_step f s N a (by omega)]
    have h2 : (f a (prodState f s a)).2 = prodState f s (a + 1) := rfl
    rw [h2]
    have := ih (a + 1) (by omega)
    rw [show a + 1 + n = a + (n + 1) by omega] at this
    exact this

theorem regionInit_eq_fwd {T σ : Type} (f : Nat → σ → T × σ) (s : σ) (N : Nat) :
    regionInit T N 1 = fwdRegion f s 0 := by
  refine RegionState.ext ?_ ?_ ?_ ?_
  · funext j
    simp only [regionInit, fwdRegion]
    rw [if_neg (show ¬ ((0 : Int) ≤ j ∧ j < ((0 : Nat) : Int)) by omega)]
  · simp only [regionInit, fwdRegion]
    rw [if_neg (by norm_num : ¬ (1 : Int) < 0)]
    rfl
  · rfl
  · rfl

theorem regionInit_eq_bwd {T σ : Type} (f : Nat → σ → T × σ) (s : σ) (N : Nat) :
    regionInit T N (-1) = bwdRegion f s N 0 := by
  refine RegionState.ext ?_ ?_ ?_ ?_
  · funext j
    simp only [regionInit, bwdRegion]
    rw [if_neg (show ¬ ((N : Int) - ((0 : Nat) : Int) ≤ j ∧ j < (N : Int)) by omega)]
  · simp only [regionInit, bwdRegion]
    rw [if_pos (by norm_num : (-1 : Int) < 0)]
    omega
  · rfl
  · rfl

/-- C3: for every `N` and both directions, the initializer is invoked exactly
once per index, with indices `0, 1, ..., N-1` in ascending order; in the forward
direction (`D = 1`) the value produced for index `i` ends up in slot `i` and the
physical write order is ascending, while in the backward direction (`D = -1`)
physical writes run from the last slot to the first, the value produced for
index `i` ending up in slot `N - 1 - i`. -/
theorem engine_call_order_and_placement {T σ : Type} (N : Nat) (f : Nat → σ → T × σ)
    (s : σ) :
    ((base_array_init_nodrop N 1 f s).1.calls = List.range N ∧
     (base_array_init_nodrop N 1 f s).1.writes = (List.range N).map Int.ofNat ∧
     (∀ i, i < N →
       (base_array_init_nodrop N 1 f s).1.slots (Int.ofNat i) = some (prodVal f s i))) ∧
    ((base_array_init_nodrop N (-1) f s).1.calls = List.range N ∧
     (base_array_init_nodrop N (-1) f s).1.writes =
       (List.range N).map (fun t => (N : Int) - 1 - Int.ofNat t) ∧
     (∀ i, i < N →
       (base_array_init_nodrop N (-1) f s).1.slots ((N : Int) - 1 - Int.ofNat i) =
         some (prodVal f s i))) := by
  have hfwd : base_array_init_nodrop N 1 f s = (fwdRegion f s N, prodState f s N) := by
    rw [base_array_init_nodrop, List.range_eq_range', regionInit_eq_fwd f s N]
    have h0 : prodState f s 0 = s := rfl
    rw [← h0]
    have := nodropGo_fwd f s N 0
    rw [Nat.zero_add] at this
    exact this
  have hbwd : base_array_init_nodrop N (-1) f s = (bwdRegion f s N N, prodState f s N) := by
    rw [base_array_init_nodrop, List.range_eq_range', regionInit_eq_bwd f s N]
    have h0 : prodState f s 0 = s := rfl
    rw [← h0]
    have := nodropGo_bwd f s N N 0 (by omega)
    rw [Nat.zero_add] at this
    exact this
  refine ⟨⟨?_, ?_, ?_⟩, ⟨?_, ?_, ?_⟩⟩
  · rw [hfwd]; rfl
  · rw [hfwd]; rfl
  · intro i hi
    rw [hfwd]
    show (fwdRegion f s N).slots (Int.ofNat i) = _
    simp only [fwdRegion]
    rw [if_pos (show (0 : Int) ≤ Int.ofNat i ∧ Int.ofNat i < (N : Int) by
      simp only [Int.ofNat_eq_coe]; omega)]
    rfl
  · rw [hbwd]; rfl
  · rw [hbwd]; rfl
  · intro i hi
    rw [hbwd]
    show (bwdRegion f s N N).slots ((N : Int) - 1 - Int.ofNat i) = _
    simp only [bwdRegion]
    rw [if_pos (show (N : Int) - ((N : Nat) : Int) ≤ (N : Int) - 1 - Int.ofNat i ∧
      (N : Int) - 1 - Int.ofNat i < (N : Int) by simp only [Int.ofNat_eq_coe]; omega)]
    have htn : ((N : Int) - 1 - Int.ofNat i).toNat = N - 1 - i := by
      simp only [Int.ofNat_eq_coe]; omega
    rw [htn]
    have hidx : N - 1 - (N - 1 - i) = i := by omega
    rw [hidx]

/-- Witness for `engine_call_order_and_placement`: `N = 3`, producer `i * 10`,
checking index `1` in both directions. -/
theorem engine_call_order_and_placement_witness :
    (1 < 3 ∧ (base_array_init_nodrop 3 1 (fun i (s : Unit) => (i * 10, s)) ()).1.slots
      (Int.ofNat 1) = some (prodVal (fun i (s : Unit) => (i * 10, s)) () 1)) ∧
    (1 < 3 ∧ (base_array_init_nodrop 3 (-1) (fun i (s : Unit) => (i * 10, s)) ()).1.slots
      ((3 : Int) - 1 - Int.ofNat 1) = some (prodVal (fun i (s : Unit) => (i * 10, s)) () 1)) :=
  ⟨⟨by decide, (engine_call_order_and_placement 3 _ ()).1.2.2 1 (by decide)⟩,
   ⟨by decide, (engine_call_order_and_placement 3 _ ()).2.2.2 1 (by decide)⟩⟩

theorem array_init_copy_go_eq {T σ : Type} (f : Nat → σ → T × σ) :
    ∀ (l : List Nat) (ret : Nat → Option T) (s : σ),
      array_init_copy_go f l ret s = array_init_go f l ret s := by
  intro l
  induction l with
  | nil => intro ret s; rfl
  | cons i rest ih =>
    intro ret s
    show array_init_copy_go f rest _ _ = _
    rw [ih]
    rfl

/-- C8: for `Copy` element types the copy-specialized operations have an external
contract identical to the general ones — `array_init_copy` returns the same array
(and leaves the producer's state the same) as `array_init` for every producer,
and `from_iter_copy` returns the same `Option` result as `from_iter` for every
iterator. -/
theorem copy_variants_same_contract {T σ ι : Type} (N : Nat) (f : Nat → σ → T × σ)
    (s : σ) (next : ι → Option (T × ι)) (it0 : ι) :
    array_init_copy N f s = array_init N f s ∧
    (from_iter_copy N next it0).out = (from_iter N next it0).out := by
  constructor
  · rw [array_init_copy, array_init, array_init_copy_go_eq]
  · rw [from_iter_copy_eq]

/-- C7: for `N = 0` every fill operation completes immediately with an empty
container: the engine loops run zero iterations for any direction `d` and any
residue (`naked` / `result` / `option`), with an empty call log and nothing for a
guard to release; `array_init` and `array_init_copy` return the untouched empty
region for every producer (so the producer is never invoked); `from_iter` and
`from_iter_copy` return `Some` of the empty region with zero `next` calls, zero
items consumed and zero releases. -/
theorem zero_length_immediate {T σ E ι : Type} (d : Int) (f1 : Nat → σ → T × σ)
    (f2 : Nat → σ → Except E T × σ) (f3 : Nat → σ → Option T × σ) (s : σ)
    (next : ι → Option (T × ι)) (it0 : ι) :
    base_array_init_nodrop 0 d f1 s = (regionInit T 0 d, s) ∧
    (regionInit T 0 d).calls = [] ∧
    (regionInit T 0 d).writes = [] ∧
    base_array_init_drop 0 d f2 s = Sum.inl (engineInit T 0 d, s) ∧
    base_array_init_drop_option 0 d f3 s = Sum.inl (engineInit T 0 d, s) ∧
    (engineInit T 0 d).calls = [] ∧
    guardDropOffsets (engineInit T 0 d) = [] ∧
    array_init 0 f1 s = (fun _ => none, s) ∧
    array_init_copy 0 f1 s = (fun _ => none, s) ∧
    (from_iter 0 next it0).out = some (fun _ => none) ∧
    (from_iter 0 next it0).consumed = [] ∧
    (from_iter 0 next it0).released = [] ∧
    (from_iter 0 next it0).nextCalls = 0 ∧
    from_iter_copy 0 next it0 = from_iter 0 next it0 :=
  ⟨rfl, rfl, rfl, rfl, rfl, rfl, rfl, rfl, rfl, rfl, rfl, rfl, rfl, rfl⟩

/-- Expected needs-drop engine state at entry to iteration `i` of a forward
(`D = 1`) run whose first `i` productions succeeded with values
`vs 0, ..., vs (i-1)`: slots `0..i-1` initialized, cursor at `i`, guard anchored
at the region's start. -/
def fwdGuard {T : Type} (vs : Nat → T) (i : Nat) : EngineState T :=
  { slots := fun j => if 0 ≤ j ∧ j < (i : Int) then some (vs j.toNat) else none
    ptr := (i : Int)
    base := 0
    count := i - 1
    calls := List.range i
    writes := (List.range i).map Int.ofNat }

/-- Expected needs-drop engine state at entry to iteration `i` of a backward
(`D = -1`) run over `N` slots whose first `i` productions succeeded: slots
`N-i..N-1` initialized (slot `N-1-t` holding `vs t`), cursor and guard anchor at
`N-i`. -/
def bwdGuard {T : Type} (vs : Nat → T) (N i : Nat) : EngineState T :=
  { slots := fun j => if (N : Int) - (i : Int) ≤ j ∧ j < (N : Int) then
      some (vs (N - 1 - j.toNat)) else none
    ptr := (N : Int) - (i : Int)
    base := (N : Int) - (i : Int)
    count := i - 1
    calls := List.range i
    writes := (List.range i).map (fun t => (N : Int) - 1 - Int.ofNat t) }

theorem dropStep_err {T σ E : Type} (f : Nat → σ → Except E T × σ) (d : Int) (i : Nat)
    (st : EngineState T) (s s' : σ) (e : E) (hf : f i s = (Except.error e, s')) :
    dropStep f d i st s = Sum.inr (e, armGuard i st, s') := by
  simp only [dropStep, hf]

theorem dropStep_ok_pos {T σ E : Type} (f : Nat → σ → Except E T × σ) (i : Nat)
    (st : EngineState T) (s s' : σ) (v : T) (hf : f i s = (Except.ok v, s')) :
    dropStep f 1 i st s =
      Sum.inl ({ slots := fun j => if j = st.ptr then some v else st.slots j
                 ptr := st.ptr + 1
                 base := st.base
                 count := i
                 calls := st.calls ++ [i]
                 writes := st.writes ++ [st.ptr] }, s') := by
  simp only [dropStep, armGuard, hf]
  rw [if_neg (by norm_num : ¬ (1 : Int) < 0), if_pos (by norm_num : (1 : Int) > 0)]

theorem dropStep_ok_neg {T σ E : Type} (f : Nat → σ → Except E T × σ) (i : Nat)
    (st : EngineState T) (s s' : σ) (v : T) (hf : f i s = (Except.ok v, s')) :
    dropStep f (-1) i st s =
      Sum.inl ({ slots := fun j => if j = st.ptr - 1 then some v else st.slots j
                 ptr := st.ptr - 1
                 base := st.ptr - 1
                 count := i
                 calls := st.calls ++ [i]
                 writes := st.writes ++ [st.ptr - 1] }, s') := by
  simp only [dropStep, armGuard, hf]
  rw [if_pos (by norm_num : (-1 : Int) < 0), if_neg (by norm_num : ¬ (-1 : Int) > 0)]

theorem dropGo_cons_inl {T σ E : Type} (f : Nat → σ → Except E T × σ) (d : Int)
    (i : Nat) (rest : List Nat) (st st' : EngineState T) (s s' : σ)
    (h : dropStep f d i st s = Sum.inl (st', s')) :
    dropGo f d (i :: rest) st s = dropGo f d rest st' s' := by
  simp only [dropGo, h]

theorem dropGo_cons_inr {T σ E : Type} (f : Nat → σ → Except E T × σ) (d : Int)
    (i : Nat) (rest : List Nat) (st : EngineState T) (s : σ)
    (r : E × EngineState T × σ) (h : dropStep f d i st s = Sum.inr r) :
    dropGo f d (i :: rest) st s = Sum.inr r := by
  simp only [dropGo, h]

theorem fwdGuard_step {T : Type} (vs : Nat → T) (a : Nat) :
    ({ slots := fun j => if j = (fwdGuard vs a).ptr then some (vs a)
         else (fwdGuard vs a).slots j
       ptr := (fwdGuard vs a).ptr + 1
       base := (fwdGuard vs a).base
       count := a
       calls := (fwdGuard vs a).calls ++ [a]
       writes := (fwdGuard vs a).writes ++ [(fwdGuard vs a).ptr] } : EngineState T) =
      fwdGuard vs (a + 1) := by
  refine EngineState.ext ?_ ?_ ?_ ?_ ?_ ?_
  · funext j
    simp only [fwdGuard]
    by_cases hj : j = (a : Int)
    · subst hj
      rw [if_pos rfl, if_pos (show (0 : Int) ≤ (a : Int) ∧ (a : Int) < ((a + 1 : Nat) : Int)
        by omega)]
      rfl
    · rw [if_neg hj]
      by_cases hcond : 0 ≤ j ∧ j < (a : Int)
      · rw [if_pos hcond, if_pos (show (0 : Int) ≤ j ∧ j < ((a + 1 : Nat) : Int) by omega)]
      · rw [if_neg hcond, if_neg (show ¬ ((0 : Int) ≤ j ∧ j < ((a + 1 : Nat) : Int)) by omega)]
  · simp only [fwdGuard]
    push_cast
    ring
  · rfl
  · simp only [fwdGuard]
    omega
  · simp only [fwdGuard]
    rw [List.range_succ]
  · simp only [fwdGuard]
    rw [List.range_succ, List.map_append]
    rfl

theorem bwdGuard_step {T : Type} (vs : Nat → T) (N a : Nat) (ha : a < N) :
    ({ slots := fun j => if j = (bwdGuard vs N a).ptr - 1 then some (vs a)
         else (bwdGuard vs N a).slots j
       ptr := (bwdGuard vs N a).ptr - 1
       base := (bwdGuard vs N a).ptr - 1
       count := a
       calls := (bwdGuard vs N a).calls ++ [a]
       writes := (bwdGuard vs N a).writes ++ [(bwdGuard vs N a).ptr - 1] } :
        EngineState T) = bwdGuard vs N (a + 1) := by
  refine EngineState.ext ?_ ?_ ?_ ?_ ?_ ?_
  · funext j
    simp only [bwdGuard]
    by_cases hj : j = (N : Int) - (a : Int) - 1
    · subst hj
      rw [if_pos rfl, if_pos (show (N : Int) - ((a + 1 : Nat) : Int) ≤ (N : Int) - (a : Int) - 1
          ∧ (N : Int) - (a : Int) - 1 < (N : Int) by omega)]
      have htn : ((N : Int) - (a : Int) - 1).toNat = N - a - 1 := by omega
      rw [htn]
      have hidx : N - 1 - (N - a - 1) = a := by omega
      rw [hidx]
    · rw [if_neg hj]
      by_cases hcond : (N : Int) - (a : Int) ≤ j ∧ j < (N : Int)
      · rw [if_pos hcond, if_pos (show (N : Int) - ((a + 1 : Nat) : Int) ≤ j ∧ j < (N : Int)
          by omega)]
      · rw [if_neg hcond, if_neg (show ¬ ((N : Int) - ((a + 1 : Nat) : Int) ≤ j ∧
          j < (N : Int)) by omega)]
  · simp only [bwdGuard]
    push_cast
    ring
  · simp only [bwdGuard]
    push_cast
    ring
  · simp only [bwdGuard]
    omega
  · simp only [bwdGuard]
    rw [List.range_succ]
  · simp only [bwdGuard]
    rw [List.range_succ, List.map_append]
    have : (N : Int) - (a : Int) - 1 = (N : Int) - 1 - Int.ofNat a := by
      simp only [Int.ofNat_eq_coe]
      ring
    rw [this]
    rfl

theorem dropGo_fwd_ok {T σ E : Type} (f : Nat → σ → Except E T × σ) (s : σ)
    (vs : Nat → T) :
    ∀ (n a : Nat), (∀ j, a ≤ j → j < a + n → prodResE f s j = Except.ok (vs j)) →
      dropGo f 1 (List.range' a n) (fwdGuard vs a) (prodStateE f s a) =
        Sum.inl (fwdGuard vs (a + n), prodStateE f s (a + n)) := by
  intro n
  induction n with
  | zero => intro a _; rfl
  | succ n ih =>
    intro a hok
    have hf : f a (prodStateE f s a) = (Except.ok (vs a), prodStateE f s (a + 1)) :=
      Prod.ext (hok a le_rfl (by omega)) rfl
    show dropGo f 1 (a :: List.range' (a + 1) n) _ _ = _
    rw [dropGo_cons_inl f 1 a _ _ _ _ _ (dropStep_ok_pos f a _ _ _ _ hf),
      fwdGuard_step vs a]
    have := ih (a + 1) (fun j h1 h2 => hok j (by omega) (by omega))
    rw [show a + 1 + n = a + (n + 1) by omega] at this
    exact this

theorem dropGo_fwd_err {T σ E : Type} (f : Nat → σ → Except E T × σ) (s : σ)
    (vs : Nat → T) (e : E) :
    ∀ (n a m : Nat), a ≤ m → m < a + n →
      (∀ j, a ≤ j → j < m → prodResE f s j = Except.ok (vs j)) →
      prodResE f s m = Except.error e →
      dropGo f 1 (List.range' a n) (fwdGuard vs a) (prodStateE f s a) =
        Sum.inr (e, armGuard m (fwdGuard vs m), prodStateE f s (m + 1)) := by
  intro n
  induction n with
  | zero => intro a m h1 h2 _ _; omega
  | succ n ih =>
    intro a m ham hmn hok herr
    by_cases hma : m = a
    · subst hma
      have hf : f m (prodStateE f s m) = (Except.error e, prodStateE f s (m + 1)) :=
        Prod.ext herr rfl
      show dropGo f 1 (m :: List.range' (m + 1) n) _ _ = _
      rw [dropGo_cons_inr f 1 m _ _ _ _ (dropStep_err f 1 m _ _ _ e hf)]
    · have hf : f a (prodStateE f s a) = (Except.ok (vs a), prodStateE f s (a + 1)) :=
        Prod.ext (hok a le_rfl (by omega)) rfl
      show dropGo f 1 (a :: List.range' (a + 1) n) _ _ = _
      rw [dropGo_cons_inl f 1 a _ _ _ _ _ (dropStep_ok_pos f a _ _ _ _ hf),
        fwdGuard_step vs a]
      exact ih (a + 1) m (by omega) (by omega) (fun j h1 h2 => hok j (by omega) h2) herr

theorem dropGo_bwd_ok {T σ E : Type} (f : Nat → σ → Except E T × σ) (s : σ)
    (vs : Nat → T) (N : Nat) :
    ∀ (n a : Nat), a + n ≤ N →
      (∀ j, a ≤ j → j < a + n → prodResE f s j = Except.ok (vs j)) →
      dropGo f (-1) (List.range' a n) (bwdGuard vs N a) (prodStateE f s a) =
        Sum.inl (bwdGuard vs N (a + n), prodStateE f s (a + n)) := by
  intro n
  induction n with
  | zero => intro a _ _; rfl
  | succ n ih =>
    intro a hle hok
    have hf : f a (prodStateE f s a) = (Except.ok (vs a), prodStateE f s (a + 1)) :=
      Prod.ext (hok a le_rfl (by omega)) rfl
    show dropGo f (-1) (a :: List.range' (a + 1) n) _ _ = _
    rw [dropGo_cons_inl f (-1) a _ _ _ _ _ (dropStep_ok_neg f a _ _ _ _ hf),
      bwdGuard_step vs N a (by omega)]
    have := ih (a + 1) (by omega) (fun j h1 h2 => hok j (by omega) (by omega))
    rw [show a + 1 + n = a + (n + 1) by omega] at this
    exact this

theorem dropGo_bwd_err {T σ E : Type} (f : Nat → σ → Except E T × σ) (s : σ)
    (vs : Nat → T) (e : E) (N : Nat) :
    ∀ (n a m : Nat), a + n ≤ N → a ≤ m → m < a + n →
      (∀ j, a ≤ j → j < m → prodResE f s j = Except.ok (vs j)) →
      prodResE f s m = Except.error e →
      dropGo f (-1) (List.range' a n) (bwdGuard vs N a) (prodStateE f s a) =
        Sum.inr (e, armGuard m (bwdGuard vs N m), prodStateE f s (m + 1)) := by
  intro n
  induction n with
  | zero => intro a m _ h1 h2 _ _; omega
  | succ n ih =>
    intro a m hle ham hmn hok herr
    by_cases hma : m = a
    · subst hma
      have hf : f m (prodStateE f s m) = (Except.error e, prodStateE f s (m + 1)) :=
        Prod.ext herr rfl
      show dropGo f (-1) (m :: List.range' (m + 1) n) _ _ = _
      rw [dropGo_cons_inr f (-1) m _ _ _ _ (dropStep_err f (-1) m _ _ _ e hf)]
    · have hf : f a (prodStateE f s a) = (Except.ok (vs a), prodStateE f s (a + 1)) :=
        Prod.ext (hok a le_rfl (by omega)) rfl
      show dropGo f (-1) (a :: List.range' (a + 1) n) _ _ = _
      rw [dropGo_cons_inl f (-1) a _ _ _ _ _ (dropStep_ok_neg f a _ _ _ _ hf),
        bwdGuard_step vs N a (by omega)]
      exact ih (a + 1) m (by omega) (by omega) (by omega)
        (fun j h1 h2 => hok j (by omega) h2) herr

theorem engineInit_eq_fwd {T : Type} (vs : Nat → T) (N : Nat) :
    engineInit T N 1 = fwdGuard vs 0 := by
  refine EngineState.ext ?_ ?_ ?_ ?_ ?_ ?_
  · funext j
    simp only [engineInit, fwdGuard]
    rw [if_neg (show ¬ ((0 : Int) ≤ j ∧ j < ((0 : Nat) : Int)) by omega)]
  · simp only [engineInit, fwdGuard]
    rw [if_neg (by norm_num : ¬ (1 : Int) < 0)]
    rfl
  · simp only [engineInit, fwdGuard]
    rw [if_neg (by norm_num : ¬ (1 : Int) < 0)]
  · rfl
  · rfl
  · rfl

theorem engineInit_eq_bwd {T : Type} (vs : Nat → T) (N : Nat) :
    engineInit T N (-1) = bwdGuard vs N 0 := by
  refine EngineState.ext ?_ ?_ ?_ ?_ ?_ ?_
  · funext j
    simp only [engineInit, bwdGuard]
    rw [if_neg (show ¬ ((N : Int) - ((0 : Nat) : Int) ≤ j ∧ j < (N : Int)) by omega)]
  · simp only [engineInit, bwdGuard]
    rw [if_pos (by norm_num : (-1 : Int) < 0)]
    omega
  · simp only [engineInit, bwdGuard]
    rw [if_pos (by norm_num : (-1 : Int) < 0)]
    omega
  · rfl
  · rfl
  · rfl

theorem map_range_rev {α : Type} (h : Nat → α) :
    ∀ k, (List.range k).map (fun t => h (k - 1 - t)) = ((List.range k).map h).reverse := by
  intro k
  induction k with
  | zero => rfl
  | succ k ih =>
    have hL : (List.range (k + 1)).map (fun t => h (k + 1 - 1 - t)) =
        h k :: (List.range k).map (fun t => h (k - 1 - t)) := by
      rw [List.range_succ_eq_map, List.map_cons, List.map_map]
      congr 1
      apply List.map_congr_left
      intro t ht
      show h (k + 1 - 1 - (t + 1)) = h (k - 1 - t)
      congr 1
      omega
    rw [hL, ih, List.range_succ, List.map_append, List.reverse_append]
    rfl

/-- C5: for the result-wrapped production mode, the engine returns the fully
initialized container on success; if the initializer fails, the first error
value is returned to the caller verbatim, and the initializer is not invoked for
any index after the failing one (the call log is exactly `0..k`). -/
theorem try_fill_with_first_error {T σ E : Type} (N : Nat) (d : Int)
    (f : Nat → σ → Except E T × σ) (s : σ) (vs : Nat → T) (hd : d = 1 ∨ d = -1) :
    ((∀ j, j < N → prodResE f s j = Except.ok (vs j)) →
      ∃ stf : EngineState T,
        base_array_init_drop N d f s = Sum.inl (stf, prodStateE f s N) ∧
        ∀ off : Int, 0 ≤ off → off < (N : Int) → stf.slots off ≠ none) ∧
    (∀ k e, k < N → (∀ j, j < k → prodResE f s j = Except.ok (vs j)) →
      prodResE f s k = Except.error e →
      ∃ (stf : EngineState T) (sf : σ),
        base_array_init_drop N d f s = Sum.inr (e, stf, sf) ∧
        stf.calls = List.range (k + 1)) := by
  have h0 : prodStateE f s 0 = s := rfl
  rcases hd with rfl | rfl
  · constructor
    · intro hok
      refine ⟨fwdGuard vs N, ?_, ?_⟩
      · rw [base_array_init_drop, List.range_eq_range', engineInit_eq_fwd vs N, ← h0]
        have := dropGo_fwd_ok f s vs N 0 (fun j h1 h2 => hok j (by omega))
        rw [Nat.zero_add] at this
        exact this
      · intro off h1 h2
        simp only [fwdGuard]
        rw [if_pos ⟨h1, h2⟩]
        simp
    · intro k e hk hok herr
      refine ⟨armGuard k (fwdGuard vs k), prodStateE f s (k + 1), ?_, ?_⟩
      · rw [base_array_init_drop, List.range_eq_range', engineInit_eq_fwd vs N, ← h0]
        exact dropGo_fwd_err f s vs e N 0 k (by omega) (by omega)
          (fun j h1 h2 => hok j h2) herr
      · show (fwdGuard vs k).calls ++ [k] = List.range (k + 1)
        simp only [fwdGuard]
        rw [List.range_succ]
  · constructor
    · intro hok
      refine ⟨bwdGuard vs N N, ?_, ?_⟩
      · rw [base_array_init_drop, List.range_eq_range', engineInit_eq_bwd vs N, ← h0]
        have := dropGo_bwd_ok f s vs N N 0 (by omega) (fun j h1 h2 => hok j (by omega))
        rw [Nat.zero_add] at this
        exact this
      · intro off h1 h2
        simp only [bwdGuard]
        rw [if_pos ⟨by omega, h2⟩]
        simp
    · intro k e hk hok herr
      refine ⟨armGuard k (bwdGuard vs N k), prodStateE f s (k + 1), ?_, ?_⟩
      · rw [base_array_init_drop, List.range_eq_range', engineInit_eq_bwd vs N, ← h0]
        exact dropGo_bwd_err f s vs e N N 0 k (by omega) (by omega) (by omega)
          (fun j h1 h2 => hok j h2) herr
      · show (bwdGuard vs N k).calls ++ [k] = List.range (k + 1)
        simp only [bwdGuard]
        rw [List.range_succ]

/-- A producer for concrete runs: yields `i * 10` for `i < 2`, fails at index 2
with the error string boom. -/
def failAt2 : Nat → Unit → Except String Nat × Unit :=
  fun i s => if i = 2 then (Except.error "boom", s) else (Except.ok (i * 10), s)

/-- Witness for `try_fill_with_first_error`: `N = 3`, forward, failure at index 2. -/
theorem try_fill_with_first_error_witness :
    2 < 3 ∧
    ∃ (stf : EngineState Nat) (sf : Unit),
      base_array_init_drop 3 1 failAt2 () = Sum.inr ("boom", stf, sf) ∧
      stf.calls = List.range (2 + 1) :=
  ⟨by decide,
   (try_fill_with_first_error 3 1 failAt2 () (fun j => j * 10) (Or.inl rfl)).2 2 "boom"
     (by decide) (fun j hj => by interval_cases j <;> rfl) rfl⟩

/-- C1: for element types that need dropping, if the initializer fails at index
`k` (for any `k < N`, either direction), the guard teardown releases exactly the
`k` elements already produced: the released slot offsets are exactly the written
offsets (each exactly once — no duplicates, never more than `k`, never fewer),
the released values are exactly the `k` produced values, and no slot outside the
initialized contiguous run is touched (every unwritten slot is still
uninitialized). -/
theorem guard_releases_exactly_initialized_run {T σ E : Type} (N : Nat) (d : Int)
    (f : Nat → σ → Except E T × σ) (s : σ) (vs : Nat → T) (k : Nat) (e : E)
    (hd : d = 1 ∨ d = -1) (hk : k < N)
    (hok : ∀ j, j < k → prodResE f s j = Except.ok (vs j))
    (herr : prodResE f s k = Except.error e) :
    ∃ stf : EngineState T,
      base_array_init_drop N d f s = Sum.inr (e, stf, prodStateE f s (k + 1)) ∧
      (guardDropOffsets stf).length = k ∧
      (guardDropOffsets stf).Nodup ∧
      List.Perm (guardDropOffsets stf) stf.writes ∧
      List.Perm (guardDropValues stf) ((List.range k).map (fun j => some (vs j))) ∧
      (∀ off, off ∉ stf.writes → stf.slots off = none) := by
  have h0 : prodStateE f s 0 = s := rfl
  rcases hd with rfl | rfl
  · have hoffs : guardDropOffsets (armGuard k (fwdGuard vs k)) =
        (List.range k).map Int.ofNat := by
      simp only [guardDropOffsets, armGuard, fwdGuard]
      apply List.map_congr_left
      intro t ht
      exact zero_add _
    have hwrites : (armGuard k (fwdGuard vs k)).writes = (List.range k).map Int.ofNat := rfl
    refine ⟨armGuard k (fwdGuard vs k), ?_, ?_, ?_, ?_, ?_, ?_⟩
    · rw [base_array_init_drop, List.range_eq_range', engineInit_eq_fwd vs N, ← h0]
      exact dropGo_fwd_err f s vs e N 0 k (by omega) (by omega)
        (fun j h1 h2 => hok j h2) herr
    · rw [hoffs]
      simp
    · rw [hoffs]
      exact (List.nodup_range k).map
        (fun x y hxy => by simp only [Int.ofNat_eq_coe] at hxy; omega)
    · rw [hoffs, hwrites]
    · have hvals : guardDropValues (armGuard k (fwdGuard vs k)) =
          (List.range k).map (fun j => some (vs j)) := by
        rw [guardDropValues, hoffs, List.map_map]
        apply List.map_congr_left
        intro t ht
        have ht' := List.mem_range.1 ht
        show (fwdGuard vs k).slots (Int.ofNat t) = some (vs t)
        simp only [fwdGuard]
        rw [if_pos (show (0 : Int) ≤ Int.ofNat t ∧ Int.ofNat t < ((k : Nat) : Int) by
          simp only [Int.ofNat_eq_coe]; omega)]
        rfl
      rw [hvals]
    · intro off hoff
      by_cases hcond : (0 : Int) ≤ off ∧ off < ((k : Nat) : Int)
      · exact absurd (by
          rw [hwrites, List.mem_map]
          exact ⟨off.toNat, List.mem_range.2 (by omega),
            by simp only [Int.ofNat_eq_coe]; omega⟩) hoff
      · show (fwdGuard vs k).slots off = none
        simp only [fwdGuard]
        rw [if_neg hcond]
  · have hoffs : guardDropOffsets (armGuard k (bwdGuard vs N k)) =
        (List.range k).map (fun t => ((N : Int) - ((k : Nat) : Int)) + Int.ofNat t) := rfl
    have hwrites : (armGuard k (bwdGuard vs N k)).writes =
        (List.range k).map (fun t => (N : Int) - 1 - Int.ofNat t) := rfl
    refine ⟨armGuard k (bwdGuard vs N k), ?_, ?_, ?_, ?_, ?_, ?_⟩
    · rw [base_array_init_drop, List.range_eq_range', engineInit_eq_bwd vs N, ← h0]
      exact dropGo_bwd_err f s vs e N N 0 k (by omega) (by omega) (by omega)
        (fun j h1 h2 => hok j h2) herr
    · rw [hoffs]
      simp
    · rw [hoffs]
      exact (List.nodup_range k).map
        (fun x y hxy => by simp only [Int.ofNat_eq_coe] at hxy; omega)
    · have hrev : (List.range k).map (fun t => ((N : Int) - ((k : Nat) : Int)) + Int.ofNat t) =
          ((List.range k).map (fun t => (N : Int) - 1 - Int.ofNat t)).reverse := by
        rw [← map_range_rev (fun t => (N : Int) - 1 - Int.ofNat t) k]
        apply List.map_congr_left
        intro t ht
        have ht' := List.mem_range.1 ht
        show ((N : Int) - ((k : Nat) : Int)) + Int.ofNat t =
          (N : Int) - 1 - Int.ofNat (k - 1 - t)
        simp only [Int.ofNat_eq_coe]
        omega
      rw [hoffs, hwrites, hrev]
      exact List.reverse_perm _
    · have hv1 : guardDropValues (armGuard k (bwdGuard vs N k)) =
          (List.range k).map (fun t => some (vs (k - 1 - t))) := by
        rw [guardDropValues, hoffs, List.map_map]
        apply List.map_congr_left
        intro t ht
        have ht' := List.mem_range.1 ht
        show (bwdGuard vs N k).slots (((N : Int) - ((k : Nat) : Int)) + Int.ofNat t) =
          some (vs (k - 1 - t))
        simp only [bwdGuard]
        rw [if_pos (show (N : Int) - ((k : Nat) : Int) ≤
            ((N : Int) - ((k : Nat) : Int)) + Int.ofNat t ∧
            ((N : Int) - ((k : Nat) : Int)) + Int.ofNat t < (N : Int) by
          simp only [Int.ofNat_eq_coe]; omega)]
        have htn : (((N : Int) - ((k : Nat) : Int)) + Int.ofNat t).toNat = N - k + t := by
          simp only [Int.ofNat_eq_coe]; omega
        rw [htn]
        have hidx : N - 1 - (N - k + t) = k - 1 - t := by omega
        rw [hidx]
      rw [hv1, map_range_rev (fun t => some (vs t)) k]
      exact List.reverse_perm _
    · intro off hoff
      by_cases hcond : (N : Int) - ((k : Nat) : Int) ≤ off ∧ off < ((N : Nat) : Int)
      · exact absurd (by
          rw [hwrites, List.mem_map]
          exact ⟨N - 1 - off.toNat, List.mem_range.2 (by omega),
            by simp only [Int.ofNat_eq_coe]; omega⟩) hoff
      · show (bwdGuard vs N k).slots off = none
        simp only [bwdGuard]
        rw [if_neg hcond]

/-- Witness for `guard_releases_exactly_initialized_run`: `N = 3`, forward,
producer failing at index 2 — exactly 2 releases. -/
theorem guard_releases_exactly_initialized_run_witness :
    2 < 3 ∧
    ∃ stf : EngineState Nat,
      base_array_init_drop 3 1 failAt2 () = Sum.inr ("boom", stf, prodStateE failAt2 () 3) ∧
      (guardDropOffsets stf).length = 2 ∧
      (guardDropOffsets stf).Nodup ∧
      List.Perm (guardDropOffsets stf) stf.writes ∧
      List.Perm (guardDropValues stf) ((List.range 2).map (fun j => some (j * 10))) ∧
      (∀ off, off ∉ stf.writes → stf.slots off = none) :=
  ⟨by decide,
   guard_releases_exactly_initialized_run 3 1 failAt2 () (fun j => j * 10) 2 "boom"
     (Or.inl rfl) (by decide) (fun j hj => by interval_cases j <;> rfl) rfl⟩

/-- C6: in the needs-release case, the cleanup-guard invariant holds throughout
the fill: immediately before the initializer is invoked for index `i` — that is,
in the state `armGuard i sti` reached after `i` successful iterations — the
guard's count is exactly `i`, the initialized slots are exactly the slots the
guard covers, and that coverage is the contiguous run `0..i-1` anchored at the
region's start (forward) or `N-i..N-1` anchored at its end (backward); after
the next successful write, the guard's coverage at the next arming point has
grown by exactly the slot just written. -/
theorem guard_invariant_before_each_production {T σ E : Type} (N : Nat) (d : Int)
    (f : Nat → σ → Except E T × σ) (s : σ) (vs : Nat → T) (i : Nat)
    (hd : d = 1 ∨ d = -1) (hi : i < N)
    (hok : ∀ j, j < i → prodResE f s j = Except.ok (vs j)) :
    ∃ sti : EngineState T,
      dropGo f d (List.range' 0 i) (engineInit T N d) s =
        Sum.inl (sti, prodStateE f s i) ∧
      (armGuard i sti).count = i ∧
      (∀ off : Int, (armGuard i sti).slots off ≠ none ↔
        off ∈ guardDropOffsets (armGuard i sti)) ∧
      guardDropOffsets (armGuard i sti) =
        (if d = 1 then (List.range i).map Int.ofNat
         else (List.range i).map (fun t => ((N : Int) - ((i : Nat) : Int)) + Int.ofNat t)) ∧
      (prodResE f s i = Except.ok (vs i) →
        ∃ sti1 : EngineState T,
          dropGo f d (List.range' 0 (i + 1)) (engineInit T N d) s =
            Sum.inl (sti1, prodStateE f s (i + 1)) ∧
          List.Perm (guardDropOffsets (armGuard (i + 1) sti1))
            ((if d = 1 then Int.ofNat i else (N : Int) - 1 - Int.ofNat i) ::
              guardDropOffsets (armGuard i sti))) := by
  have h0 : prodStateE f s 0 = s := rfl
  rcases hd with rfl | rfl
  · have hoffs : guardDropOffsets (armGuard i (fwdGuard vs i)) =
        (List.range i).map Int.ofNat := by
      simp only [guardDropOffsets, armGuard, fwdGuard]
      apply List.map_congr_left
      intro t ht
      exact zero_add _
    refine ⟨fwdGuard vs i, ?_, rfl, ?_, ?_, ?_⟩
    · rw [engineInit_eq_fwd vs N, ← h0]
      have := dropGo_fwd_ok f s vs i 0 (fun j h1 h2 => hok j (by omega))
      rw [Nat.zero_add] at this
      exact this
    · intro off
      rw [hoffs]
      constructor
      · intro hne
        by_cases hcond : (0 : Int) ≤ off ∧ off < ((i : Nat) : Int)
        · rw [List.mem_map]
          exact ⟨off.toNat, List.mem_range.2 (by omega),
            by simp only [Int.ofNat_eq_coe]; omega⟩
        · exact absurd (by
            show (fwdGuard vs i).slots off = none
            simp only [fwdGuard]
            rw [if_neg hcond]) hne
      · intro hmem
        rw [List.mem_map] at hmem
        obtain ⟨t, ht, rfl⟩ := hmem
        have ht' := List.mem_range.1 ht
        show (fwdGuard vs i).slots (Int.ofNat t) ≠ none
        simp only [fwdGuard]
        rw [if_pos (show (0 : Int) ≤ Int.ofNat t ∧ Int.ofNat t < ((i : Nat) : Int) by
          simp only [Int.ofNat_eq_coe]; omega)]
        simp
    · rw [if_pos rfl]
      exact hoffs
    · intro hoki
      refine ⟨fwdGuard vs (i + 1), ?_, ?_⟩
      · rw [engineInit_eq_fwd vs N, ← h0]
        have := dropGo_fwd_ok f s vs (i + 1) 0 (fun j h1 h2 => by
          rcases Nat.lt_succ_iff_lt_or_eq.1 (by omega : j < i + 1) with h | rfl
          · exact hok j h
          · exact hoki)
        rw [Nat.zero_add] at this
        exact this
      · have hcov1 : guardDropOffsets (armGuard (i + 1) (fwdGuard vs (i + 1))) =
            (List.range i).map Int.ofNat ++ [Int.ofNat i] := by
          have h1 : guardDropOffsets (armGuard (i + 1) (fwdGuard vs (i + 1))) =
              (List.range (i + 1)).map Int.ofNat := by
            simp only [guardDropOffsets, armGuard, fwdGuard]
            apply List.map_congr_left
            intro t ht
            exact zero_add _
          rw [h1, List.range_succ, List.map_append]
          rfl
        rw [hcov1, if_pos rfl, hoffs]
        exact List.perm_append_singleton _ _
  · have hoffs : guardDropOffsets (armGuard i (bwdGuard vs N i)) =
        (List.range i).map (fun t => ((N : Int) - ((i : Nat) : Int)) + Int.ofNat t) := rfl
    refine ⟨bwdGuard vs N i, ?_, rfl, ?_, ?_, ?_⟩
    · rw [engineInit_eq_bwd vs N, ← h0]
      have := dropGo_bwd_ok f s vs N i 0 (by omega) (fun j h1 h2 => hok j (by omega))
      rw [Nat.zero_add] at this
      exact this
    · intro off
      rw [hoffs]
      constructor
      · intro hne
        by_cases hcond : (N : Int) - ((i : Nat) : Int) ≤ off ∧ off < (N : Int)
        · rw [List.mem_map]
          exact ⟨off.toNat - (N - i), List.mem_range.2 (by omega),
            by simp only [Int.ofNat_eq_coe]; omega⟩
        · exact absurd (by
            show (bwdGuard vs N i).slots off = none
            simp only [bwdGuard]
            rw [if_neg hcond]) hne
      · intro hmem
        rw [List.mem_map] at hmem
        obtain ⟨t, ht, rfl⟩ := hmem
        have ht' := List.mem_range.1 ht
        show (bwdGuard vs N i).slots (((N : Int) - ((i : Nat) : Int)) + Int.ofNat t) ≠ none
        simp only [bwdGuard]
        rw [if_pos (show (N : Int) - ((i : Nat) : Int) ≤
            ((N : Int) - ((i : Nat) : Int)) + Int.ofNat t ∧
            ((N : Int) - ((i : Nat) : Int)) + Int.ofNat t < (N : Int) by
          simp only [Int.ofNat_eq_coe]; omega)]
        simp
    · rw [if_neg (by norm_num : ¬ ((-1 : Int) = 1))]
      exact hoffs
    · intro hoki
      refine ⟨bwdGuard vs N (i + 1), ?_, ?_⟩
      · rw [engineInit_eq_bwd vs N, ← h0]
        have := dropGo_bwd_ok f s vs N (i + 1) 0 (by omega) (fun j h1 h2 => by
          rcases Nat.lt_succ_iff_lt_or_eq.1 (by omega : j < i + 1) with h | rfl
          · exact hok j h
          · exact hoki)
        rw [Nat.zero_add] at this
        exact this
      · have hcov1 : guardDropOffsets (armGuard (i + 1) (bwdGuard vs N (i + 1))) =
            ((N : Int) - 1 - Int.ofNat i) ::
              (List.range i).map (fun t => ((N : Int) - ((i : Nat) : Int)) + Int.ofNat t) := by
          show (List.range (i + 1)).map
              (fun t => ((N : Int) - (((i + 1) : Nat) : Int)) + Int.ofNat t) = _
          rw [List.range_succ_eq_map, List.map_cons, List.map_map]
          congr 1
          · show ((N : Int) - (((i + 1) : Nat) : Int)) + Int.ofNat 0 =
              (N : Int) - 1 - Int.ofNat i
            simp only [Int.ofNat_eq_coe]
            push_cast
            ring
          · apply List.map_congr_left
            intro t ht
            show ((N : Int) - (((i + 1) : Nat) : Int)) + Int.ofNat (t + 1) =
              ((N : Int) - ((i : Nat) : Int)) + Int.ofNat t
            simp only [Int.ofNat_eq_coe]
            push_cast
            ring
        rw [hcov1, if_neg (by norm_num : ¬ ((-1 : Int) = 1)), hoffs]

/-- Witness for `guard_invariant_before_each_production`: `N = 3`, forward,
before producing index 1. -/
theorem guard_invariant_before_each_production_witness :
    1 < 3 ∧
    ∃ sti : EngineState Nat,
      dropGo failAt2 1 (List.range' 0 1) (engineInit Nat 3 1) () =
        Sum.inl (sti, prodStateE failAt2 () 1) ∧
      (armGuard 1 sti).count = 1 ∧
      (∀ off : Int, (armGuard 1 sti).slots off ≠ none ↔
        off ∈ guardDropOffsets (armGuard 1 sti)) ∧
      guardDropOffsets (armGuard 1 sti) =
        (if (1 : Int) = 1 then (List.range 1).map Int.ofNat
         else (List.range 1).map (fun t => ((3 : Int) - ((1 : Nat) : Int)) + Int.ofNat t)) ∧
      (prodResE failAt2 () 1 = Except.ok (1 * 10) →
        ∃ sti1 : EngineState Nat,
          dropGo failAt2 1 (List.range' 0 (1 + 1)) (engineInit Nat 3 1) () =
            Sum.inl (sti1, prodStateE failAt2 () (1 + 1)) ∧
          List.Perm (guardDropOffsets (armGuard (1 + 1) sti1))
            ((if (1 : Int) = 1 then Int.ofNat 1 else (3 : Int) - 1 - Int.ofNat 1) ::
              guardDropOffsets (armGuard 1 sti))) :=
  ⟨by decide,
   guard_invariant_before_each_production 3 1 failAt2 () (fun j => j * 10) 1
     (Or.inl rfl) (by decide) (fun j hj => by interval_cases j; rfl)⟩

/-- The array lengths for which lib.rs invokes `impl_is_array!` (one invocation
per length, `impl_is_array!(0);` through `impl_is_array!(64);`): these are
exactly the `[T; N]` types given an `IsArray` instance, hence the only lengths
usable with `array_init`, `from_iter` and the copy variants. -/
def isArrayImplLens : List Nat :=
  [0, 1, 2, 3, 4, 5, 6, 7, 8, 9, 10, 11, 12, 13, 14, 15, 16, 17, 18, 19, 20, 21,
   22, 23, 24, 25, 26, 27, 28, 29, 30, 31, 32, 33, 34, 35, 36, 37, 38, 39, 40, 41,
   42, 43, 44, 45, 46, 47, 48, 49, 50, 51, 52, 53, 54, 55, 56, 57, 58, 59, 60, 61,
   62, 63, 64]

/-- C10: the `IsArray` binding surface is implemented for `[T; N]` exactly when
`N` is in `0..=64`, so the public fill operations are available exactly for
array lengths 0 through 64. -/
theorem is_array_lens_iff_le_64 (n : Nat) : n ∈ isArrayImplLens ↔ n ≤ 64 := by
  have h : isArrayImplLens = List.range 65 := by decide
  rw [h, List.mem_range]
  omega

end ArrayInit
